import Mathlib

/-!
Verification of the simple_tsdb Python client core
(`simple_tsdb/client.py`, `simple_tsdb/push_queue.py`).

Bytes on the wire are modelled as `List Nat` (each entry one byte value);
machine words are `Nat` taken modulo the appropriate power of two at the
encode boundary, matching `struct.pack`/`numpy` little-endian layout.
Field values (including the f32/f64 kinds) are modelled by their raw
little-endian bit patterns, which is exactly what the packer serializes
and the unpacker's buffer views expose.
-/

namespace SimpleTsdb

/-- Wire tokens used by the claims (values from the source header). -/
def DT_CHUNK : Nat := 0xE4E8518F

def DT_END : Nat := 0x4E29ADCC

def DT_STATUS_CODE : Nat := 0x8C8C07D9

def DT_SUMS_CHUNK : Nat := 0x53FC76FC

def DT_READY_FOR_CHUNK : Nat := 0x6000531C

/-- `ceil_div(n, d)` from the source: `(n + d - 1) // d`. -/
def ceil_div (n d : Nat) : Nat := (n + d - 1) / d

/-- `round_up(v, K)` from the source: rounds up to the nearest multiple of K. -/
def round_up (v K : Nat) : Nat := ceil_div v K * K

/-- Little-endian byte serialization of a machine word of `w` bytes
(the action of `struct.pack` / `numpy` on one value). -/
def leBytes : Nat → Nat → List Nat
  | 0, _ => []
  | w + 1, v => v % 256 :: leBytes w (v / 256)

/-- Little-endian byte deserialization (inverse of `leBytes`). -/
def leDecode : List Nat → Nat
  | [] => 0
  | b :: bs => b + 256 * leDecode bs

/-- Serialization of an array of `w`-byte machine words
(the action of `numpy.ndarray.data` on a 1-d array). -/
def leBytesList (w : Nat) (vs : List Nat) : List Nat :=
  (vs.map (leBytes w)).flatten

/-- Deserialization of a byte buffer into `w`-byte machine words
(the action of `numpy.frombuffer`). -/
def leDecodeList (w : Nat) (bs : List Nat) : List Nat :=
  (List.range (bs.length / w)).map fun i => leDecode ((bs.drop (i * w)).take w)

theorem leBytes_length (w v : Nat) : (leBytes w v).length = w := by
  induction w generalizing v with
  | zero => rfl
  | succ w ih => simp [leBytes, ih]

theorem leDecode_leBytes (w v : Nat) : leDecode (leBytes w v) = v % 256 ^ w := by
  induction w generalizing v with
  | zero => simp [leBytes, leDecode, Nat.mod_one]
  | succ w ih =>
      simp only [leBytes, leDecode, ih]
      rw [pow_succ, mul_comm (256 ^ w) 256, Nat.mod_mul]

theorem leBytesList_cons (w v : Nat) (vs : List Nat) :
    leBytesList w (v :: vs) = leBytes w v ++ leBytesList w vs := rfl

theorem leBytesList_length (w : Nat) (vs : List Nat) :
    (leBytesList w vs).length = vs.length * w := by
  induction vs with
  | nil => simp [leBytesList]
  | cons v vs ih =>
      rw [leBytesList_cons, List.length_append, leBytes_length, ih]
      simp [List.length_cons]
      ring

/-- The `i`-th `w`-byte slice of a serialized array is the serialization of
its `i`-th element. -/
theorem leBytesList_slice (w : Nat) (vs : List Nat) (i : Nat) (hi : i < vs.length) :
    ((leBytesList w vs).drop (i * w)).take w = leBytes w (vs.getD i 0) := by
  induction vs generalizing i with
  | nil => simp at hi
  | cons v vs ih =>
      cases i with
      | zero =>
          rw [leBytesList_cons, Nat.zero_mul, List.drop_zero, List.getD_cons_zero,
            List.take_left' (leBytes_length w v)]
      | succ i =>
          have h1 : (i + 1) * w = (leBytes w v).length + i * w := by
            rw [leBytes_length]; ring
          rw [leBytesList_cons, List.getD_cons_succ, h1, List.drop_append]
          exact ih i (by simpa using hi)

theorem leDecodeList_leBytesList (w : Nat) (hw : 0 < w) (vs : List Nat) :
    leDecodeList w (leBytesList w vs) = vs.map (· % 256 ^ w) := by
  have hlen : (leBytesList w vs).length / w = vs.length := by
    rw [leBytesList_length, Nat.mul_div_cancel _ hw]
  apply List.ext_getElem
  · simp [leDecodeList, hlen]
  · intro i h1 h2
    simp only [leDecodeList, hlen, List.getElem_map, List.getElem_range]
    rw [leBytesList_slice w vs i (by simpa using h2), leDecode_leBytes]
    congr 1
    rw [List.getD_eq_getElem]

/-- One of the seven field kinds of the `FIELD_TYPES` table: its wire
identifier and element size in bytes.  The numpy/struct format keys are an
encoding detail subsumed by `leBytes`. -/
structure FieldType where
  identifier : Nat
  size : Nat
deriving DecidableEq

/-- `Field`: a (type, name) pair. -/
structure Field where
  field_type : FieldType
  name : String
deriving DecidableEq

/-- A point: the `time_ns` timestamp plus one optional raw value per field
name.  `none` models Python `None`, i.e. a null sample; a present value is
the raw little-endian bit pattern that numpy would serialize. -/
structure Point where
  time_ns : Nat
  fields : String → Option Nat

instance : Inhabited Point := ⟨⟨0, fun _ => none⟩⟩

/-- The per-field value list extracted by `Field.pack`:
`[points[i][self.name] for i in range(index, index + n)]`. -/
def Field.fieldValues (f : Field) (points : List Point) (index n : Nat) :
    List (Option Nat) :=
  (List.range n).map fun i => (points.getD (index + i) default).fields f.name

/-- The all-ones initial value of each bitmap word in `Field.pack`. -/
def ALL_ONES : Nat := 0xFFFFFFFFFFFFFFFF

/-- The null bitmap built by `Field.pack`: `ceil_div n 64` words initialized
to all-ones; for each null value at position `i`, bit `i % 64` of word
`i / 64` is flipped by XOR (clearing it, since it starts set). -/
def packBitmap (values : List (Option Nat)) (n : Nat) : List Nat :=
  (List.range values.length).foldl
    (fun bm i =>
      if values.getD i none = none then
        bm.set (i / 64) (bm.getD (i / 64) 0 ^^^ (1 <<< (i % 64)))
      else bm)
    (List.replicate (ceil_div n 64) ALL_ONES)

/-- `Field.pack`: bitmap words, then the `n` values (nulls serialized as 0),
then zero padding up to a multiple of 8 bytes. -/
def Field.pack (f : Field) (points : List Point) (index n : Nat) : List Nat :=
  let values := f.fieldValues points index n
  let nbytes := n * f.field_type.size
  let pad := if nbytes % 8 ≠ 0 then List.replicate (8 - nbytes % 8) 0 else []
  leBytesList 8 (packBitmap values n) ++
    leBytesList f.field_type.size (values.map (·.getD 0)) ++ pad

/-- `Schema`: an ordered field list. -/
structure Schema where
  fields : List Field

/-- `Schema.get_field_type`: type of the first field with the given name;
`none` models the `KeyError` raised when the name is absent. -/
def Schema.get_field_type (s : Schema) (name : String) : Option FieldType :=
  (s.fields.find? fun f => f.name = name).map (·.field_type)

/-- `Schema.pack_points`: the `n` timestamps, then each field block in
schema order. -/
def Schema.pack_points (s : Schema) (points : List Point) (index n : Nat) :
    List Nat :=
  leBytesList 8
      ((List.range n).map fun i => (points.getD (index + i) default).time_ns) ++
    (s.fields.map fun f => f.pack points index n).flatten

/-- `Schema.data_len_for_npoints`: `8*N + ceil(N/64)*8*M + S` with `M` the
field count and `S` the summed rounded value-block sizes.  The float
`math.ceil(N / 64)` of the source agrees with exact ceiling division at
every machine-representable N. -/
def Schema.data_len_for_npoints (s : Schema) (N : Nat) : Nat :=
  8 * N + ceil_div N 64 * 8 * s.fields.length +
    (s.fields.map fun f => round_up (N * f.field_type.size) 8).sum

/-- `Schema.max_points_for_data_len`.  The source computes
`int((data_len / (8 + S + M/8)) / 64) * 64` (`M` field count, `S` summed
field sizes) with IEEE-754 double division; over the u32 data lengths the
wire can carry, that double division coincides with the exact rational
value, whose integer floor form `8 * data_len / (64 + 8*S + M) / 64 * 64`
is embedded here. -/
def Schema.max_points_for_data_len (s : Schema) (data_len : Nat) : Nat :=
  8 * data_len /
      (64 + 8 * (s.fields.map fun f => f.field_type.size).sum +
        s.fields.length) / 64 * 64

theorem packBitmap_length (values : List (Option Nat)) (n : Nat) :
    (packBitmap values n).length = ceil_div n 64 := by
  unfold packBitmap
  have key : ∀ (l : List Nat) (bm : List Nat),
      (l.foldl (fun bm i =>
        if values.getD i none = none then
          bm.set (i / 64) (bm.getD (i / 64) 0 ^^^ (1 <<< (i % 64)))
        else bm) bm).length = bm.length := by
    intro l
    induction l with
    | nil => intro bm; rfl
    | cons x xs ih =>
        intro bm
        simp only [List.foldl_cons]
        rw [ih]
        split <;> simp
  rw [key, List.length_replicate]

theorem fieldValues_length (f : Field) (points : List Point) (index n : Nat) :
    (f.fieldValues points index n).length = n := by
  simp [Field.fieldValues]

theorem round_up_eight (v : Nat) :
    v + (if v % 8 ≠ 0 then 8 - v % 8 else 0) = round_up v 8 := by
  unfold round_up ceil_div
  split <;> omega

theorem field_pack_length (f : Field) (points : List Point) (index n : Nat) :
    (f.pack points index n).length =
      ceil_div n 64 * 8 + round_up (n * f.field_type.size) 8 := by
  unfold Field.pack
  simp only [List.length_append, leBytesList_length, packBitmap_length,
    List.length_map, fieldValues_length]
  rw [← round_up_eight (n * f.field_type.size)]
  split <;> simp +arith

theorem sum_map_const_add {α : Type} (l : List α) (c : Nat) (g : α → Nat) :
    (l.map fun x => c + g x).sum = l.length * c + (l.map g).sum := by
  induction l with
  | nil => simp
  | cons x xs ih => simp [ih]; ring

/-- C3: `data_len_for_npoints(N)` equals the byte length of the payload of
`pack_points` for N points, and both equal `8*N` plus, per field,
`ceil(N/64)*8` bitmap bytes plus `N*size` value bytes rounded up to a
multiple of 8. -/
theorem pack_points_length (s : Schema) (points : List Point) (index n : Nat) :
    (s.pack_points points index n).length = s.data_len_for_npoints n ∧
    s.data_len_for_npoints n =
      8 * n + (s.fields.map fun f =>
        ceil_div n 64 * 8 + round_up (n * f.field_type.size) 8).sum := by
  have hfields : ∀ f ∈ s.fields, (f.pack points index n).length =
      ceil_div n 64 * 8 + round_up (n * f.field_type.size) 8 :=
    fun f _ => field_pack_length f points index n
  have hflat : ((s.fields.map fun f => f.pack points index n).flatten).length =
      (s.fields.map fun f =>
        ceil_div n 64 * 8 + round_up (n * f.field_type.size) 8).sum := by
    rw [List.length_flatten, List.map_map]
    congr 1
    exact List.map_congr_left fun f hf => hfields f hf
  constructor
  · unfold Schema.pack_points Schema.data_len_for_npoints
    simp only [List.length_append, leBytesList_length, List.length_map,
      List.length_range, hflat, sum_map_const_add]
    ring
  · unfold Schema.data_len_for_npoints
    simp only [sum_map_const_add]
    ring

theorem sum_map_mul_const {α : Type} (l : List α) (c : Nat) (g : α → Nat) :
    (l.map fun x => c * g x).sum = c * (l.map g).sum := by
  induction l with
  | nil => simp
  | cons x xs ih => simp [ih]; ring

theorem data_len_for_npoints_mul64 (s : Schema) (k : Nat) :
    s.data_len_for_npoints (64 * k) =
      8 * k * (64 + 8 * (s.fields.map fun f => f.field_type.size).sum +
        s.fields.length) := by
  unfold Schema.data_len_for_npoints
  have h1 : ceil_div (64 * k) 64 = k := by unfold ceil_div; omega
  have h2 : ∀ f : Field,
      round_up (64 * k * f.field_type.size) 8 = 64 * k * f.field_type.size := by
    intro f
    unfold round_up ceil_div
    have : 64 * k * f.field_type.size = 8 * (8 * k * f.field_type.size) := by ring
    rw [this]
    omega
  rw [h1]
  have h3 : (s.fields.map fun f => round_up (64 * k * f.field_type.size) 8) =
      s.fields.map fun f => 64 * k * f.field_type.size :=
    List.map_congr_left fun f _ => h2 f
  rw [h3]
  have h4 : (s.fields.map fun f => 64 * k * f.field_type.size).sum =
      64 * k * (s.fields.map fun f => f.field_type.size).sum :=
    sum_map_mul_const s.fields (64 * k) fun f => f.field_type.size
  rw [h4]
  ring

/-- C2: `max_points_for_data_len(data_len)` is a multiple of 64 and, with
`N` its value, `data_len_for_npoints(N) ≤ data_len <
data_len_for_npoints(N + 64)`. -/
theorem max_points_for_data_len_spec (s : Schema) (data_len : Nat) :
    64 ∣ s.max_points_for_data_len data_len ∧
    s.data_len_for_npoints (s.max_points_for_data_len data_len) ≤ data_len ∧
    data_len <
      s.data_len_for_npoints (s.max_points_for_data_len data_len + 64) := by
  set S := (s.fields.map fun f => f.field_type.size).sum with hS
  set M := s.fields.length with hM
  set D := 64 + 8 * S + M with hD
  have hN : s.max_points_for_data_len data_len = 64 * (8 * data_len / D / 64) := by
    unfold Schema.max_points_for_data_len
    rw [← hS, ← hM, ← hD]
    exact Nat.mul_comm _ _
  set k := 8 * data_len / D / 64 with hk
  have hkk : k = 8 * data_len / (D * 64) := by rw [hk, Nat.div_div_eq_div_mul]
  refine ⟨⟨8 * data_len / D / 64, hN⟩, ?_, ?_⟩
  · rw [hN, data_len_for_npoints_mul64, ← hS, ← hM]
    have h1 : 8 * data_len / (D * 64) * (D * 64) ≤ 8 * data_len :=
      Nat.div_mul_le_self _ _
    rw [← hkk] at h1
    have h2 : k * (D * 64) = 8 * (8 * (k * D)) := by ring
    rw [h2] at h1
    have h3 : 8 * k * (64 + 8 * S + M) = 8 * (k * D) := by rw [hD]; ring
    rw [h3]
    omega
  · have h64 : 64 * k + 64 = 64 * (k + 1) := by ring
    rw [hN, h64, data_len_for_npoints_mul64, ← hS, ← hM]
    have h1 : 8 * data_len % (D * 64) < D * 64 :=
      Nat.mod_lt _ (by positivity)
    have h2 : D * 64 * (8 * data_len / (D * 64)) +
        8 * data_len % (D * 64) = 8 * data_len := Nat.div_add_mod _ _
    rw [← hkk] at h2
    have h3 : 8 * (k + 1) * (64 + 8 * S + M) = 8 * (k * D) + 8 * D := by
      rw [hD]; ring
    have h4 : D * 64 * k = 8 * (8 * (k * D)) := by ring
    rw [h4] at h2
    rw [h3]
    omega

/-- One frame sent during the data phase of `Connection.write_points`:
either a `DT_CHUNK` frame `(npoints, bitmap_offset, payload)` or the final
`DT_END` token (which `_write_points_end` follows by reading one status). -/
inductive TXFrame
  | chunk (npoints bitmap_offset : Nat) (data : List Nat)
  | endTok
deriving DecidableEq

def TXFrame.isChunk : TXFrame → Bool
  | .chunk _ _ _ => true
  | .endTok => false

/-- The chunk frames emitted by the `while rem_points:` loop of
`Connection.write_points`: `n = min(rem_points, N)` points are packed from
the running index and sent with bitmap_offset 0.  The Python loop has no
iteration bound; `fuel` caps the number of iterations modelled (see the
termination theorems for when it suffices and when no fuel does). -/
def writeChunksFuel (s : Schema) (points : List Point) (N : Nat) :
    Nat → Nat → Nat → List TXFrame
  | 0, _, _ => []
  | fuel + 1, index, rem =>
      if rem = 0 then []
      else
        TXFrame.chunk (min rem N) 0 (s.pack_points points index (min rem N)) ::
          writeChunksFuel s points N fuel (index + min rem N) (rem - min rem N)

/-- The frame trace of the data phase of `Connection.write_points`: the
chunk frames for all `len(points)` points starting at index 0 and
`rem_points = len(points)`, followed by the `DT_END` token. -/
def write_points_trace (s : Schema) (points : List Point)
    (max_data_len fuel : Nat) : List TXFrame :=
  writeChunksFuel s points (s.max_points_for_data_len max_data_len) fuel 0
    points.length ++ [TXFrame.endTok]

/-- One iteration of the `while rem_points:` loop acting on the
`(index, rem_points)` state. -/
def writeLoopStep (N : Nat) (st : Nat × Nat) : Nat × Nat :=
  if st.2 = 0 then st else (st.1 + min st.2 N, st.2 - min st.2 N)

theorem ceil_div_eq_one (rem N : Nat) (h1 : 0 < rem) (h2 : rem ≤ N) :
    ceil_div rem N = 1 := by
  unfold ceil_div
  exact Nat.div_eq_of_lt_le (by omega) (by omega)

theorem ceil_div_sub (rem N : Nat) (h : N ≤ rem) (hN : 0 < N) :
    ceil_div rem N = ceil_div (rem - N) N + 1 := by
  unfold ceil_div
  have e : rem + N - 1 = (rem - N + N - 1) + N := by omega
  rw [e, Nat.add_div_right _ hN]

theorem ceil_div_zero_left (N : Nat) (hN : 0 < N) : ceil_div 0 N = 0 := by
  unfold ceil_div
  exact Nat.div_eq_of_lt (by omega)

/-- Closed form of the chunking loop when the per-chunk capacity is
positive: iteration `j` packs `min (rem - j*N) N` points at offset
`index + j*N`. -/
theorem writeChunksFuel_closed (s : Schema) (points : List Point) (N : Nat)
    (hN : 0 < N) :
    ∀ fuel index rem, rem ≤ fuel →
      writeChunksFuel s points N fuel index rem =
        (List.range (ceil_div rem N)).map fun j =>
          TXFrame.chunk (min (rem - j * N) N) 0
            (s.pack_points points (index + j * N) (min (rem - j * N) N)) := by
  intro fuel
  induction fuel with
  | zero =>
      intro index rem hrem
      have : rem = 0 := by omega
      subst this
      rw [ceil_div_zero_left N hN]
      rfl
  | succ fuel ih =>
      intro index rem hrem
      by_cases h0 : rem = 0
      · subst h0
        rw [ceil_div_zero_left N hN]
        rfl
      · rw [writeChunksFuel, if_neg h0]
        have hmin : 0 < min rem N := by omega
        rw [ih (index + min rem N) (rem - min rem N) (by omega)]
        by_cases hle : rem ≤ N
        · have hminr : min rem N = rem := by omega
          rw [hminr, Nat.sub_self, ceil_div_zero_left N hN,
            ceil_div_eq_one rem N (by omega) hle]
          simp only [List.range_zero, List.map_nil, List.range_succ,
            List.nil_append, List.map_cons, Nat.zero_mul, Nat.sub_zero,
            Nat.add_zero, hminr]
        · have hminN : min rem N = N := by omega
          rw [hminN, ceil_div_sub rem N (by omega) hN, List.range_succ_eq_map,
            List.map_cons, List.map_map]
          congr 1
          · simp only [Nat.zero_mul, Nat.sub_zero, Nat.add_zero]
            rw [hminN]
          · apply List.map_congr_left
            intro j _
            simp only [Function.comp_apply, Nat.succ_mul]
            rw [Nat.add_comm (j * N) N, ← Nat.sub_sub, ← Nat.add_assoc]

theorem count_chunks_of_map_range (g : Nat → Nat) (h : Nat → List Nat) (c : Nat) :
    (((List.range c).map fun j => TXFrame.chunk (g j) 0 (h j)).countP
      TXFrame.isChunk) = c := by
  induction c with
  | zero => rfl
  | succ c ih =>
      rw [List.range_succ, List.map_append, List.countP_append, ih]
      rfl

/-- C4: for a non-empty point list of length K with per-chunk capacity
`M = max_points_for_data_len(max_data_len) > 0`, the data phase sends
exactly `ceil_div K M` chunk frames — the j-th packing `min (K - j*M) M`
points from index `j*M` with bitmap_offset 0, so the chunks partition the
points in order — followed by exactly one `DT_END` (after which one status
is read); when `K % M ≠ 0` the last chunk holds `K % M` points. -/
theorem write_points_frames (s : Schema) (points : List Point)
    (max_data_len : Nat) (hne : points ≠ [])
    (hM : 64 ≤ s.max_points_for_data_len max_data_len) :
    write_points_trace s points max_data_len points.length =
      ((List.range
          (ceil_div points.length (s.max_points_for_data_len max_data_len))).map
        fun j => TXFrame.chunk
          (min (points.length - j * s.max_points_for_data_len max_data_len)
            (s.max_points_for_data_len max_data_len)) 0
          (s.pack_points points (j * s.max_points_for_data_len max_data_len)
            (min (points.length - j * s.max_points_for_data_len max_data_len)
              (s.max_points_for_data_len max_data_len)))) ++
        [TXFrame.endTok] ∧
    (write_points_trace s points max_data_len points.length).countP
        TXFrame.isChunk =
      ceil_div points.length (s.max_points_for_data_len max_data_len) ∧
    (write_points_trace s points max_data_len points.length).countP
        (fun fr => fr == TXFrame.endTok) = 1 ∧
    (points.length % s.max_points_for_data_len max_data_len ≠ 0 →
      min (points.length -
          (ceil_div points.length (s.max_points_for_data_len max_data_len) - 1) *
            s.max_points_for_data_len max_data_len)
          (s.max_points_for_data_len max_data_len) =
        points.length % s.max_points_for_data_len max_data_len) := by
  set N := s.max_points_for_data_len max_data_len with hNdef
  have hN : 0 < N := by omega
  set K := points.length with hK
  have hclosed := writeChunksFuel_closed s points N hN K 0 K (Nat.le_refl K)
  have htrace : write_points_trace s points max_data_len K =
      ((List.range (ceil_div K N)).map fun j =>
        TXFrame.chunk (min (K - j * N) N) 0
          (s.pack_points points (j * N) (min (K - j * N) N))) ++
        [TXFrame.endTok] := by
    unfold write_points_trace
    rw [← hNdef, ← hK, hclosed]
    simp only [Nat.zero_add]
  refine ⟨htrace, ?_, ?_, ?_⟩
  · rw [htrace, List.countP_append, count_chunks_of_map_range]
    rfl
  · rw [htrace, List.countP_append]
    have : ∀ (c : Nat) (g : Nat → Nat) (h : Nat → List Nat),
        (((List.range c).map fun j =>
          TXFrame.chunk (g j) 0 (h j)).countP
            (fun fr => fr == TXFrame.endTok)) = 0 := by
      intro c g h
      induction c with
      | zero => rfl
      | succ c ih =>
          rw [List.range_succ, List.map_append, List.countP_append, ih]
          rfl
    rw [this]
    rfl
  · intro hmod
    have hdm := Nat.div_add_mod K N
    have hlt := Nat.mod_lt K hN
    set d := K / N with hd
    set r := K % N with hr
    have hceil : ceil_div K N = d + 1 := by
      unfold ceil_div
      have e : K + N - 1 = N * d + (r + N - 1) := by omega
      rw [e, Nat.mul_add_div hN]
      have : (r + N - 1) / N = 1 := by
        have lo : 1 * N ≤ r + N - 1 := by omega
        have hi : r + N - 1 < (1 + 1) * N := by omega
        exact Nat.div_eq_of_lt_le lo hi
      omega
    rw [hceil]
    simp only [Nat.add_sub_cancel]
    have e2 : d * N = N * d := by ring
    omega

/-- `data_len_for_npoints` is monotone in the point count. -/
theorem data_len_for_npoints_mono (s : Schema) {a b : Nat} (h : a ≤ b) :
    s.data_len_for_npoints a ≤ s.data_len_for_npoints b := by
  unfold Schema.data_len_for_npoints
  have h1 : ceil_div a 64 ≤ ceil_div b 64 := by
    unfold ceil_div
    exact Nat.div_le_div_right (by omega)
  have h2 : (s.fields.map fun f => round_up (a * f.field_type.size) 8).sum ≤
      (s.fields.map fun f => round_up (b * f.field_type.size) 8).sum := by
    apply List.sum_le_sum
    intro f _
    unfold round_up ceil_div
    have : a * f.field_type.size ≤ b * f.field_type.size :=
      Nat.mul_le_mul_right _ h
    exact Nat.mul_le_mul_right _ (Nat.div_le_div_right (by omega))
  have h3 : ceil_div a 64 * 8 * s.fields.length ≤
      ceil_div b 64 * 8 * s.fields.length :=
    Nat.mul_le_mul_right _ (Nat.mul_le_mul_right _ h1)
  omega

/-- C9: every chunk the `write_points` loop can emit (any fuel, any loop
state) satisfies the two in-code assertions: its payload length equals
`data_len_for_npoints(n)` and does not exceed the advertised
`max_data_len`. -/
theorem write_points_chunk_assertions (s : Schema) (points : List Point)
    (max_data_len : Nat) (fuel index rem n bo : Nat) (data : List Nat)
    (hmem : TXFrame.chunk n bo data ∈
      writeChunksFuel s points (s.max_points_for_data_len max_data_len) fuel
        index rem) :
    data.length = s.data_len_for_npoints n ∧ data.length ≤ max_data_len := by
  induction fuel generalizing index rem with
  | zero => simp [writeChunksFuel] at hmem
  | succ fuel ih =>
      rw [writeChunksFuel] at hmem
      split at hmem
      · simp at hmem
      · rw [List.mem_cons] at hmem
        rcases hmem with heq | hmem
        · have hinj : n = min rem (s.max_points_for_data_len max_data_len) ∧
              data = s.pack_points points index
                (min rem (s.max_points_for_data_len max_data_len)) := by
            injection heq with h1 h2 h3
            exact ⟨h1, h3⟩
          obtain ⟨hn, hdata⟩ := hinj
          have hlen : data.length = s.data_len_for_npoints n := by
            rw [hdata, hn]
            exact (pack_points_length s points index _).1
          refine ⟨hlen, ?_⟩
          rw [hlen]
          calc s.data_len_for_npoints n ≤
                s.data_len_for_npoints (s.max_points_for_data_len max_data_len) :=
              data_len_for_npoints_mono s (by omega)
            _ ≤ max_data_len := (max_points_for_data_len_spec s max_data_len).2.1
        · exact ih _ _ hmem

/-- Iterating the loop step from `(0, K)` with capacity `N`: after `m`
iterations the state is `(min (m*N) K, K - m*N)`. -/
theorem writeLoopStep_iterate (N K : Nat) (hN : 0 < N) (m : Nat) :
    (writeLoopStep N)^[m] (0, K) = (min (m * N) K, K - m * N) := by
  induction m with
  | zero => simp
  | succ m ih =>
      rw [Function.iterate_succ_apply', ih]
      have e : (m + 1) * N = m * N + N := by ring
      unfold writeLoopStep
      rw [e]
      split
      · have : K ≤ m * N := by
          simp only at *
          omega
        simp only [Prod.mk.injEq]
        constructor <;> omega
      · simp only [Prod.mk.injEq]
        constructor <;> omega

/-- C10: with `K = len(points) ≠ 0` and `N` the derived per-chunk capacity:
if `64 ≤ N` the loop reaches `rem_points = 0` after exactly `ceil_div K N`
iterations (and not before); if `N = 0` the state never changes — every
iteration emits a chunk of 0 points (so any fuel's trace is just replicated
zero-point chunks) and `rem_points` never reaches 0. -/
theorem write_points_termination (s : Schema) (points : List Point)
    (max_data_len : Nat) (hne : points.length ≠ 0) :
    (64 ≤ s.max_points_for_data_len max_data_len →
      ((writeLoopStep (s.max_points_for_data_len max_data_len))^[
          ceil_div points.length (s.max_points_for_data_len max_data_len)]
        (0, points.length)).2 = 0 ∧
      ∀ m < ceil_div points.length (s.max_points_for_data_len max_data_len),
        ((writeLoopStep (s.max_points_for_data_len max_data_len))^[m]
          (0, points.length)).2 ≠ 0) ∧
    (s.max_points_for_data_len max_data_len = 0 →
      (∀ m, (writeLoopStep (s.max_points_for_data_len max_data_len))^[m]
        (0, points.length) = (0, points.length)) ∧
      ∀ fuel, writeChunksFuel s points (s.max_points_for_data_len max_data_len)
          fuel 0 points.length =
        List.replicate fuel (TXFrame.chunk 0 0 (s.pack_points points 0 0))) := by
  set N := s.max_points_for_data_len max_data_len with hNdef
  set K := points.length with hK
  constructor
  · intro h64
    have hN : 0 < N := by omega
    have hceil := Nat.div_add_mod (K + N - 1) N
    have hceillt := Nat.mod_lt (K + N - 1) hN
    constructor
    · rw [writeLoopStep_iterate N K hN]
      have : K ≤ ceil_div K N * N := by
        unfold ceil_div
        set c := (K + N - 1) / N with hc
        set r := (K + N - 1) % N with hr
        have e : c * N = N * c := by ring
        omega
      simp only
      omega
    · intro m hm
      rw [writeLoopStep_iterate N K hN]
      have hlt : m * N < K := by
        have h1 : m + 1 ≤ ceil_div K N := hm
        have h2 : (m + 1) * N ≤ ceil_div K N * N := Nat.mul_le_mul_right _ h1
        have h3 : ceil_div K N * N ≤ K + N - 1 := by
          unfold ceil_div
          have := Nat.div_mul_le_self (K + N - 1) N
          omega
        have e : (m + 1) * N = m * N + N := by ring
        omega
      simp only
      omega
  · intro h0
    have hstep : ∀ m, (writeLoopStep N)^[m] (0, K) = (0, K) := by
      intro m
      induction m with
      | zero => rfl
      | succ m ih =>
          rw [Function.iterate_succ_apply', ih]
          unfold writeLoopStep
          rw [h0]
          split
          · rfl
          · simp
    refine ⟨hstep, ?_⟩
    intro fuel
    induction fuel with
    | zero => rfl
    | succ fuel ih =>
        rw [h0] at ih
        rw [writeChunksFuel, if_neg (by omega), h0]
        simp only [Nat.min_zero, Nat.add_zero, Nat.sub_zero]
        rw [ih, List.replicate_succ]

/-- The exception kinds a client call can raise: `StatusException(code)`,
`ProtocolException(message)`, `ConnectionClosedException`, the `KeyError`
from a field lookup, and any other (IO/TLS/OS) exception. -/
inductive TsdbError
  | statusExc (code : Int)
  | protocolExc (msg : String)
  | connClosedExc
  | keyError
  | ioError
deriving DecidableEq

/-- `Connection._recvall`: exactly `size` bytes from the stream, raising
`ConnectionClosedException` if the peer closes first. -/
def recvall (size : Nat) (input : List Nat) :
    Except TsdbError (List Nat × List Nat) :=
  if size ≤ input.length then .ok (input.take size, input.drop size)
  else .error .connClosedExc

def recv_u16 (input : List Nat) : Except TsdbError (Nat × List Nat) :=
  (recvall 2 input).map fun p => (leDecode p.1, p.2)

def recv_u32 (input : List Nat) : Except TsdbError (Nat × List Nat) :=
  (recvall 4 input).map fun p => (leDecode p.1, p.2)

/-- Reinterpret a u32 bit pattern as the i32 that `struct.unpack` with
key `i` yields. -/
def toI32 (v : Nat) : Int := if v < 2 ^ 31 then (v : Int) else (v : Int) - 2 ^ 32

def recv_i32 (input : List Nat) : Except TsdbError (Int × List Nat) :=
  (recvall 4 input).map fun p => (toI32 (leDecode p.1), p.2)

/-- `FieldData`: the typed view over one field's bitmap and value buffers.
`bitmap` and `values` hold the machine words decoded by `np.frombuffer`. -/
structure FieldData where
  bitmap_offset : Nat
  field_size : Nat
  bitmap : List Nat
  values : List Nat
deriving DecidableEq

def mkFieldData (bitmap_offset : Nat) (bitmap_data field_data : List Nat)
    (ft : FieldType) : FieldData :=
  ⟨bitmap_offset, ft.size, leDecodeList 8 bitmap_data,
    leDecodeList ft.size field_data⟩

/-- `FieldData.get_bitmap_bit`: bit `(bitmap_offset + i) % 64` of word
`(bitmap_offset + i) / 64`, truthiness of `v & (1 << shift)`. -/
def FieldData.get_bitmap_bit (fd : FieldData) (i : Nat) : Bool :=
  (fd.bitmap.getD ((fd.bitmap_offset + i) / 64) 0 &&&
    (1 <<< ((fd.bitmap_offset + i) % 64))) != 0

/-- `FieldData.__getitem__`: outer `none` models the IndexError for an
out-of-range index; `some none` a null value; `some (some v)` a value. -/
def FieldData.getItem (fd : FieldData) (i : Nat) : Option (Option Nat) :=
  if i < fd.values.length then
    if fd.get_bitmap_bit i then some (some (fd.values.getD i 0)) else some none
  else none

/-- `RXChunk`: decoded timestamps plus one `FieldData` per requested field,
in request order. -/
structure RXChunk where
  npoints : Nat
  bitmap_offset : Nat
  timestamps : List Nat
  fields : List (String × FieldData)
deriving DecidableEq

/-- The per-field slicing loop of `RXChunk.__init__`, walking `offset`
through `data`; `none` models the KeyError raised by `get_field_type` when
a requested field is not in the schema. -/
def rxFields (s : Schema) (npoints bitmap_offset bitmap_nbytes : Nat)
    (data : List Nat) : List String → Nat → Option (List (String × FieldData))
  | [], _ => some []
  | name :: names, offset =>
      match s.get_field_type name with
      | none => none
      | some ft =>
          let bitmap_data := (data.drop offset).take bitmap_nbytes
          let data_len := ft.size * npoints
          let field_data := (data.drop (offset + bitmap_nbytes)).take data_len
          let pad := if data_len % 8 ≠ 0 then 8 - data_len % 8 else 0
          match rxFields s npoints bitmap_offset bitmap_nbytes data names
              (offset + bitmap_nbytes + data_len + pad) with
          | none => none
          | some rest =>
              some ((name, mkFieldData bitmap_offset bitmap_data field_data ft)
                :: rest)

/-- `RXChunk.__init__`: timestamps from `data[0 : npoints*8]`, then the
field walk starting at offset `npoints*8` with
`bitmap_nbytes = ceil((bitmap_offset + npoints)/64) * 8`. -/
def mkRXChunk (s : Schema) (fields : List String) (npoints bitmap_offset : Nat)
    (data : List Nat) : Option RXChunk :=
  match rxFields s npoints bitmap_offset
      (ceil_div (bitmap_offset + npoints) 64 * 8) data fields (npoints * 8) with
  | none => none
  | some fds =>
      some ⟨npoints, bitmap_offset, leDecodeList 8 (data.take (npoints * 8)), fds⟩

/-- One `SelectOP.read_chunk` call, as a function of the schema, the
requested field list, `self.last_token` and the incoming byte stream.
Returns the optional chunk (`none` = normal stream termination), the new
`last_token` and the unconsumed input. -/
def SelectOP.read_chunk (s : Schema) (fields : List String) (last_token : Nat)
    (input : List Nat) :
    Except TsdbError (Option RXChunk × Nat × List Nat) :=
  if last_token = DT_END then
    match recv_u32 input with
    | .error e => .error e
    | .ok (dt, input1) =>
        if dt ≠ DT_STATUS_CODE then
          .error (.protocolExc "Expected DT_STATUS_CODE")
        else
          match recv_i32 input1 with
          | .error e => .error e
          | .ok (sc, input2) =>
              if sc ≠ 0 then .error (.protocolExc "Expected status 0")
              else .ok (none, DT_END, input2)
  else if last_token ≠ DT_CHUNK then
    .error (.protocolExc "Expected DT_CHUNK")
  else
    match recv_u32 input with
    | .error e => .error e
    | .ok (npoints, input1) =>
        match recv_u32 input1 with
        | .error e => .error e
        | .ok (bitmap_offset, input2) =>
            match recv_u32 input2 with
            | .error e => .error e
            | .ok (data_len, input3) =>
                match recvall data_len input3 with
                | .error e => .error e
                | .ok (data, input4) =>
                    match recv_u32 input4 with
                    | .error e => .error e
                    | .ok (tok, input5) =>
                        match mkRXChunk s fields npoints bitmap_offset data with
                        | none => .error .keyError
                        | some ch => .ok (some ch, tok, input5)

/-- `RXSumsChunk`: decoded window timestamps, per-field sum bit patterns
(f64, kept as raw u64 words) and per-field non-null counts. -/
structure RXSumsChunk where
  fields : List String
  timestamps : List Nat
  sums : List (List Nat)
  npoints : List (List Nat)
deriving DecidableEq

/-- The `for _ in range(count)` loops of `SumsOP.read_chunk` that decode
`count` consecutive arrays of `8 * cn` bytes each, advancing `pos`. -/
def readSumArrays (data : List Nat) (cn : Nat) :
    Nat → Nat → List (List Nat) × Nat
  | 0, pos => ([], pos)
  | count + 1, pos =>
      let arr := leDecodeList 8 ((data.drop pos).take (8 * cn))
      let (rest, pos2) := readSumArrays data cn count (pos + 8 * cn)
      (arr :: rest, pos2)

/-- One `SumsOP.read_chunk` call: `chunk_npoints` is a u16; the payload of
`chunk_npoints * (8 + F*32)` bytes is read in one `recvall`, then walked
as timestamps, sums, skipped mins, skipped maxs, and npoints. -/
def SumsOP.read_chunk (fields : List String) (last_token : Nat)
    (input : List Nat) :
    Except TsdbError (Option RXSumsChunk × Nat × List Nat) :=
  if last_token = DT_END then
    match recv_u32 input with
    | .error e => .error e
    | .ok (dt, input1) =>
        if dt ≠ DT_STATUS_CODE then
          .error (.protocolExc "Expected DT_STATUS_CODE")
        else
          match recv_i32 input1 with
          | .error e => .error e
          | .ok (sc, input2) =>
              if sc ≠ 0 then .error (.protocolExc "Expected status 0")
              else .ok (none, DT_END, input2)
  else if last_token ≠ DT_SUMS_CHUNK then
    .error (.protocolExc "Expected DT_SUMS_CHUNK")
  else
    match recv_u16 input with
    | .error e => .error e
    | .ok (cn, input1) =>
        match recvall (cn * (8 + fields.length * 32)) input1 with
        | .error e => .error e
        | .ok (data, input2) =>
            let timestamps := leDecodeList 8 ((data.drop 0).take (8 * cn))
            let pos1 := 0 + 8 * cn
            let (sums, pos2) := readSumArrays data cn fields.length pos1
            let pos3 := pos2 + 8 * cn * fields.length
            let pos4 := pos3 + 8 * cn * fields.length
            let (npoints, _) := readSumArrays data cn fields.length pos4
            match recv_u32 input2 with
            | .error e => .error e
            | .ok (tok, input3) =>
                .ok (some ⟨fields, timestamps, sums, npoints⟩, tok, input3)

/-- The `Client.conn` slot: `some id` when a Connection object is held,
`none` when cleared. -/
abbrev ClientConn := Option Nat

/-- The guard pattern shared by every `Client` operation except
`create_database`: `except StatusException: raise` then a bare
`except: self.close(); raise`.  Input is the live connection (after the
lazy connect) and the outcome of the underlying `Connection` call; output
is the final `self.conn` and the surfaced outcome. -/
def clientGuardStandard (conn : Nat) (result : Except TsdbError Unit) :
    ClientConn × Except TsdbError Unit :=
  match result with
  | .ok a => (some conn, .ok a)
  | .error (.statusExc c) => (some conn, .error (.statusExc c))
  | .error e => (none, .error e)

/-- The guard actually written in `Client.create_database`:
`except ProtocolException: self.close(); raise` and nothing else — any
non-protocol exception propagates with `self.conn` left in place. -/
def clientGuardCreateDatabase (conn : Nat) (result : Except TsdbError Unit) :
    ClientConn × Except TsdbError Unit :=
  match result with
  | .ok a => (some conn, .ok a)
  | .error (.protocolExc m) => (none, .error (.protocolExc m))
  | .error e => (some conn, .error e)

/-- The result of running the PushQueue worker's per-batch retry loop for a
bounded number of attempts: either the batch was delivered (with the list
of 30-second sleeps performed before success) or the loop is still
retrying (fuel exhausted; the loop itself never exits otherwise). -/
inductive PushOutcome (S P : Type)
  | delivered (pts : List P) (sleeps : List Nat)
  | retrying (schema : Option S) (sleeps : List Nat)
deriving DecidableEq

/-- The `while True:` retry loop of `PushQueue._push_loop` for one
`(path, points)` batch.  `lookup k` / `write k` give the outcome of the
`get_schema` / `write_points` call on the k-th attempt; the
`except Exception` handler turns any error into a 30-second sleep and a
retry, re-running the schema lookup only if it had not yet succeeded. -/
def pushBatch {S P : Type} (lookup : Nat → Except TsdbError S)
    (write : Nat → S → Except TsdbError Unit) (points : List P) :
    Nat → Nat → Option S → List Nat → PushOutcome S P
  | 0, _, schema, sleeps => .retrying schema sleeps
  | fuel + 1, k, schema, sleeps =>
      match schema with
      | none =>
          match lookup k with
          | .error _ => pushBatch lookup write points fuel (k + 1) none
              (sleeps ++ [30])
          | .ok sch =>
              match write k sch with
              | .error _ => pushBatch lookup write points fuel (k + 1)
                  (some sch) (sleeps ++ [30])
              | .ok _ => .delivered points sleeps
      | some sch =>
          match write k sch with
          | .error _ => pushBatch lookup write points fuel (k + 1) (some sch)
              (sleeps ++ [30])
          | .ok _ => .delivered points sleeps

theorem recvall_ok {size : Nat} {input : List Nat} (h : size ≤ input.length) :
    recvall size input = .ok (input.take size, input.drop size) := by
  simp [recvall, h]

theorem recvall_err {size : Nat} {input : List Nat} (h : input.length < size) :
    recvall size input = .error .connClosedExc := by
  simp [recvall]
  omega

theorem recv_u32_ok {input : List Nat} (h : 4 ≤ input.length) :
    recv_u32 input = .ok (leDecode (input.take 4), input.drop 4) := by
  simp [recv_u32, recvall_ok h, Except.map]

theorem recv_u32_err {input : List Nat} (h : input.length < 4) :
    recv_u32 input = .error .connClosedExc := by
  simp [recv_u32, recvall_err h, Except.map]

theorem recv_i32_ok {input : List Nat} (h : 4 ≤ input.length) :
    recv_i32 input = .ok (toI32 (leDecode (input.take 4)), input.drop 4) := by
  simp [recv_i32, recvall_ok h, Except.map]

theorem recv_i32_err {input : List Nat} (h : input.length < 4) :
    recv_i32 input = .error .connClosedExc := by
  simp [recv_i32, recvall_err h, Except.map]

theorem recv_u16_ok {input : List Nat} (h : 2 ≤ input.length) :
    recv_u16 input = .ok (leDecode (input.take 2), input.drop 2) := by
  simp [recv_u16, recvall_ok h, Except.map]

theorem recvall_error_eq {size : Nat} {input : List Nat} {e : TsdbError}
    (h : recvall size input = .error e) : e = .connClosedExc := by
  rw [recvall] at h
  split at h
  · cases h
  · cases h
    rfl

theorem recv_u32_error_eq {input : List Nat} {e : TsdbError}
    (h : recv_u32 input = .error e) : e = .connClosedExc := by
  rw [recv_u32] at h
  rcases hr : recvall 4 input with er | pr
  · rw [hr] at h
    simp only [Except.map] at h
    cases h
    exact recvall_error_eq hr
  · rw [hr] at h
    simp [Except.map] at h

/-- C7: a select stream terminates normally (`read_chunk` returns the
`None` sentinel) exactly when `last_token` is DT_END and the stream
continues with DT_STATUS_CODE and status 0; a token that is neither
DT_CHUNK nor DT_END, a wrong token after DT_END, and a non-zero status
after DT_END each raise ProtocolException; and `read_chunk` never raises
StatusException. -/
theorem select_read_chunk_spec (s : Schema) (fields : List String)
    (last_token : Nat) (input : List Nat) :
    ((∃ rest, SelectOP.read_chunk s fields last_token input =
        .ok (none, DT_END, rest)) ↔
      (last_token = DT_END ∧ 8 ≤ input.length ∧
        leDecode (input.take 4) = DT_STATUS_CODE ∧
        toI32 (leDecode ((input.drop 4).take 4)) = 0)) ∧
    (last_token ≠ DT_END → last_token ≠ DT_CHUNK →
      SelectOP.read_chunk s fields last_token input =
        .error (.protocolExc "Expected DT_CHUNK")) ∧
    (last_token = DT_END → 4 ≤ input.length →
      leDecode (input.take 4) ≠ DT_STATUS_CODE →
      SelectOP.read_chunk s fields last_token input =
        .error (.protocolExc "Expected DT_STATUS_CODE")) ∧
    (last_token = DT_END → 8 ≤ input.length →
      leDecode (input.take 4) = DT_STATUS_CODE →
      toI32 (leDecode ((input.drop 4).take 4)) ≠ 0 →
      SelectOP.read_chunk s fields last_token input =
        .error (.protocolExc "Expected status 0")) ∧
    (∀ e, SelectOP.read_chunk s fields last_token input = .error e →
      ∀ c, e ≠ .statusExc c) := by
  refine ⟨⟨?_, ?_⟩, ?_, ?_, ?_, ?_⟩
  · intro ⟨rest, hok⟩
    unfold SelectOP.read_chunk at hok
    by_cases hend : last_token = DT_END
    · rw [if_pos hend] at hok
      by_cases h4 : 4 ≤ input.length
      · rw [recv_u32_ok h4] at hok
        simp only at hok
        by_cases hdt : leDecode (input.take 4) = DT_STATUS_CODE
        · rw [if_neg (by simpa using hdt)] at hok
          by_cases h8 : 4 ≤ (input.drop 4).length
          · rw [recv_i32_ok h8] at hok
            simp only at hok
            by_cases hsc : toI32 (leDecode ((input.drop 4).take 4)) = 0
            · refine ⟨hend, ?_, hdt, hsc⟩
              simp at h8
              omega
            · rw [if_pos (by simpa using hsc)] at hok
              cases hok
          · rw [recv_i32_err (by omega)] at hok
            cases hok
        · rw [if_pos (by simpa using hdt)] at hok
          cases hok
      · rw [recv_u32_err (by omega)] at hok
        cases hok
    · rw [if_neg hend] at hok
      by_cases hchunk : last_token = DT_CHUNK
      · rw [if_neg (by simpa using hchunk)] at hok
        rcases h1 : recv_u32 input with e1 | ⟨np, i1⟩
        · rw [h1] at hok
          simp at hok
        · rw [h1] at hok
          simp only at hok
          rcases h2 : recv_u32 i1 with e2 | ⟨bo, i2⟩
          · rw [h2] at hok
            simp at hok
          · rw [h2] at hok
            simp only at hok
            rcases h3 : recv_u32 i2 with e3 | ⟨dl, i3⟩
            · rw [h3] at hok
              simp at hok
            · rw [h3] at hok
              simp only at hok
              rcases h4 : recvall dl i3 with e4 | ⟨dat, i4⟩
              · rw [h4] at hok
                simp at hok
              · rw [h4] at hok
                simp only at hok
                rcases h5 : recv_u32 i4 with e5 | ⟨tok, i5⟩
                · rw [h5] at hok
                  simp at hok
                · rw [h5] at hok
                  simp only at hok
                  rcases h6 : mkRXChunk s fields np bo dat with _ | ch
                  · rw [h6] at hok
                    simp at hok
                  · rw [h6] at hok
                    simp at hok
      · rw [if_pos (by simpa using hchunk)] at hok
        cases hok
  · intro ⟨hend, h8, hdt, hsc⟩
    refine ⟨input.drop 4 |>.drop 4, ?_⟩
    unfold SelectOP.read_chunk
    rw [if_pos hend, recv_u32_ok (by omega)]
    simp only
    rw [if_neg (by simpa using hdt), recv_i32_ok (by simp; omega)]
    simp only
    rw [if_neg (by simpa using hsc)]
  · intro hend hchunk
    unfold SelectOP.read_chunk
    rw [if_neg hend, if_pos (by simpa using hchunk)]
  · intro hend h4 hdt
    unfold SelectOP.read_chunk
    rw [if_pos hend, recv_u32_ok h4]
    simp only
    rw [if_pos (by simpa using hdt)]
  · intro hend h8 hdt hsc
    unfold SelectOP.read_chunk
    rw [if_pos hend, recv_u32_ok (by omega)]
    simp only
    rw [if_neg (by simpa using hdt), recv_i32_ok (by simp; omega)]
    simp only
    rw [if_pos (by simpa using hsc)]
  · intro e he c
    unfold SelectOP.read_chunk at he
    by_cases hend : last_token = DT_END
    · rw [if_pos hend] at he
      by_cases h4 : 4 ≤ input.length
      · rw [recv_u32_ok h4] at he
        simp only at he
        by_cases hdt : leDecode (input.take 4) = DT_STATUS_CODE
        · rw [if_neg (by simpa using hdt)] at he
          by_cases h8 : 4 ≤ (input.drop 4).length
          · rw [recv_i32_ok h8] at he
            simp only at he
            by_cases hsc : toI32 (leDecode ((input.drop 4).take 4)) = 0
            · rw [if_neg (by simpa using hsc)] at he
              cases he
            · rw [if_pos (by simpa using hsc)] at he
              cases he
              simp
          · rw [recv_i32_err (by omega)] at he
            cases he
            simp
        · rw [if_pos (by simpa using hdt)] at he
          cases he
          simp
      · rw [recv_u32_err (by omega)] at he
        cases he
        simp
    · rw [if_neg hend] at he
      by_cases hchunk : last_token = DT_CHUNK
      · rw [if_neg (by simpa using hchunk)] at he
        rcases h1 : recv_u32 input with e1 | ⟨np, i1⟩
        · rw [h1] at he
          simp only at he
          cases he
          simp [recv_u32_error_eq h1]
        · rw [h1] at he
          simp only at he
          rcases h2 : recv_u32 i1 with e2 | ⟨bo, i2⟩
          · rw [h2] at he
            simp only at he
            cases he
            simp [recv_u32_error_eq h2]
          · rw [h2] at he
            simp only at he
            rcases h3 : recv_u32 i2 with e3 | ⟨dl, i3⟩
            · rw [h3] at he
              simp only at he
              cases he
              simp [recv_u32_error_eq h3]
            · rw [h3] at he
              simp only at he
              rcases h4 : recvall dl i3 with e4 | ⟨dat, i4⟩
              · rw [h4] at he
                simp only at he
                cases he
                simp [recvall_error_eq h4]
              · rw [h4] at he
                simp only at he
                rcases h5 : recv_u32 i4 with e5 | ⟨tok, i5⟩
                · rw [h5] at he
                  simp only at he
                  cases he
                  simp [recv_u32_error_eq h5]
                · rw [h5] at he
                  simp only at he
                  rcases h6 : mkRXChunk s fields np bo dat with _ | ch
                  · rw [h6] at he
                    simp only at he
                    cases he
                    simp
                  · rw [h6] at he
                    simp only at he
                    cases he
      · rw [if_pos (by simpa using hchunk)] at he
        cases he
        simp

theorem readSumArrays_closed (data : List Nat) (cn : Nat) :
    ∀ count pos, readSumArrays data cn count pos =
      (((List.range count).map fun j =>
        leDecodeList 8 ((data.drop (pos + 8 * cn * j)).take (8 * cn))),
       pos + 8 * cn * count) := by
  intro count
  induction count with
  | zero => intro pos; simp [readSumArrays]
  | succ count ih =>
      intro pos
      rw [readSumArrays, ih (pos + 8 * cn)]
      simp only [List.range_succ_eq_map, List.map_cons, List.map_map,
        Nat.mul_zero, Nat.add_zero]
      refine congrArg₂ _ (congrArg₂ _ rfl ?_) (by rw [Nat.mul_succ]; ring)
      apply List.map_congr_left
      intro j _
      simp only [Function.comp_apply, Nat.mul_succ]
      rw [Nat.add_comm (8 * cn * j) (8 * cn), ← Nat.add_assoc]

/-- C8: a sums chunk with `chunk_npoints = cn` points and `F` requested
fields consumes exactly `cn * (8 + F*32)` payload bytes; the returned
chunk's timestamps come from bytes `[0, 8*cn)`, its j-th sums array from
bytes `[8*cn*(1+j), 8*cn*(2+j))`, the mins and maxs blocks are skipped
unexposed, and its j-th npoints array comes from bytes starting at
`8*cn*(1+3*F) + 8*cn*j`; the trailing token and remaining stream are left
untouched. -/
theorem sums_read_chunk_spec (fields : List String) (cn tok : Nat)
    (payload rest : List Nat) (hcn : cn < 2 ^ 16) (htok : tok < 2 ^ 32)
    (hlen : payload.length = cn * (8 + fields.length * 32)) :
    SumsOP.read_chunk fields DT_SUMS_CHUNK
        (leBytes 2 cn ++ (payload ++ (leBytes 4 tok ++ rest))) =
      .ok (some ⟨fields,
        leDecodeList 8 (payload.take (8 * cn)),
        (List.range fields.length).map (fun j =>
          leDecodeList 8 ((payload.drop (8 * cn + 8 * cn * j)).take (8 * cn))),
        (List.range fields.length).map (fun j =>
          leDecodeList 8 ((payload.drop
            (8 * cn * (1 + 3 * fields.length) + 8 * cn * j)).take (8 * cn)))⟩,
        tok, rest) := by
  have h2 : (leBytes 2 cn).length = 2 := leBytes_length 2 cn
  have h4 : (leBytes 4 tok).length = 4 := leBytes_length 4 tok
  unfold SumsOP.read_chunk
  rw [if_neg (by decide), if_neg (by simp)]
  rw [recv_u16_ok (by simp [h2])]
  simp only
  rw [List.take_left' h2, List.drop_left' h2, leDecode_leBytes]
  have hcnmod : cn % 256 ^ 2 = cn := Nat.mod_eq_of_lt (by norm_num; omega)
  rw [hcnmod]
  rw [recvall_ok (by simp [hlen])]
  simp only
  rw [← hlen, List.take_left, List.drop_left]
  rw [recv_u32_ok (by simp [h4])]
  simp only
  rw [List.take_left' h4, List.drop_left' h4, leDecode_leBytes]
  have htokmod : tok % 256 ^ 4 = tok := Nat.mod_eq_of_lt (by norm_num; omega)
  rw [htokmod]
  rw [readSumArrays_closed, readSumArrays_closed]
  simp only [List.drop_zero, Nat.zero_add]
  have hnp : ((List.range fields.length).map fun j =>
      leDecodeList 8 ((payload.drop (8 * cn + 8 * cn * fields.length +
        8 * cn * fields.length + 8 * cn * fields.length + 8 * cn * j)).take
        (8 * cn))) =
      (List.range fields.length).map fun j =>
        leDecodeList 8 ((payload.drop
          (8 * cn * (1 + 3 * fields.length) + 8 * cn * j)).take (8 * cn)) := by
    apply List.map_congr_left
    intro j _
    have e : 8 * cn + 8 * cn * fields.length + 8 * cn * fields.length +
        8 * cn * fields.length + 8 * cn * j =
        8 * cn * (1 + 3 * fields.length) + 8 * cn * j := by ring
    rw [e]
  rw [hnp]

/-- The guard used by the twelve operations other than `create_database`
behaves as the spec states: a StatusException propagates with the
connection kept, any other exception closes and clears it. -/
theorem clientGuardStandard_spec (conn : Nat) (r : Except TsdbError Unit) :
    (∀ c, r = .error (.statusExc c) →
      clientGuardStandard conn r = (some conn, r)) ∧
    (∀ e, r = .error e → (∀ c, e ≠ .statusExc c) →
      clientGuardStandard conn r = (none, r)) := by
  constructor
  · intro c hr
    subst hr
    rfl
  · intro e hr hne
    subst hr
    cases e
    case statusExc c => exact absurd rfl (hne c)
    all_goals rfl

/-- C5 (code-bug evidence): `Client.create_database` handles only
`ProtocolException` with a close; a ConnectionClosedException (or any
IO/TLS fault) propagates with `self.conn` still holding the dead
connection, while the guard used by every other operation clears it. -/
theorem create_database_keeps_conn_on_io_error :
    clientGuardCreateDatabase 0 (.error .connClosedExc) =
      (some 0, .error .connClosedExc) ∧
    clientGuardCreateDatabase 0 (.error .ioError) =
      (some 0, .error .ioError) ∧
    clientGuardStandard 0 (.error .connClosedExc) =
      (none, .error .connClosedExc) ∧
    clientGuardStandard 0 (.error .ioError) =
      (none, .error .ioError) ∧
    clientGuardCreateDatabase 0 (.error (.statusExc (-18))) =
      (some 0, .error (.statusExc (-18))) := by
  refine ⟨rfl, rfl, rfl, rfl, rfl⟩

theorem pushBatch_none_lookup_err {S P : Type}
    (lookup : Nat → Except TsdbError S)
    (write : Nat → S → Except TsdbError Unit) (points : List P)
    (fuel k : Nat) (sleeps : List Nat) {e : TsdbError}
    (hl : lookup k = .error e) :
    pushBatch lookup write points (fuel + 1) k none sleeps =
      pushBatch lookup write points fuel (k + 1) none (sleeps ++ [30]) := by
  rw [pushBatch, hl]

theorem pushBatch_none_write_err {S P : Type}
    (lookup : Nat → Except TsdbError S)
    (write : Nat → S → Except TsdbError Unit) (points : List P)
    (fuel k : Nat) (sleeps : List Nat) {sch : S} {e : TsdbError}
    (hl : lookup k = .ok sch) (hw : write k sch = .error e) :
    pushBatch lookup write points (fuel + 1) k none sleeps =
      pushBatch lookup write points fuel (k + 1) (some sch) (sleeps ++ [30]) := by
  rw [pushBatch, hl]
  simp only
  rw [hw]

theorem pushBatch_none_write_ok {S P : Type}
    (lookup : Nat → Except TsdbError S)
    (write : Nat → S → Except TsdbError Unit) (points : List P)
    (fuel k : Nat) (sleeps : List Nat) {sch : S}
    (hl : lookup k = .ok sch) (hw : write k sch = .ok ()) :
    pushBatch lookup write points (fuel + 1) k none sleeps =
      .delivered points sleeps := by
  rw [pushBatch, hl]
  simp only
  rw [hw]

theorem pushBatch_some_write_err {S P : Type}
    (lookup : Nat → Except TsdbError S)
    (write : Nat → S → Except TsdbError Unit) (points : List P)
    (fuel k : Nat) (sleeps : List Nat) {sch : S} {e : TsdbError}
    (hw : write k sch = .error e) :
    pushBatch lookup write points (fuel + 1) k (some sch) sleeps =
      pushBatch lookup write points fuel (k + 1) (some sch) (sleeps ++ [30]) := by
  rw [pushBatch, hw]

theorem pushBatch_some_write_ok {S P : Type}
    (lookup : Nat → Except TsdbError S)
    (write : Nat → S → Except TsdbError Unit) (points : List P)
    (fuel k : Nat) (sleeps : List Nat) {sch : S}
    (hw : write k sch = .ok ()) :
    pushBatch lookup write points (fuel + 1) k (some sch) sleeps =
      .delivered points sleeps := by
  rw [pushBatch, hw]

theorem pushBatch_aux {S P : Type} (lookup : Nat → Except TsdbError S)
    (write : Nat → S → Except TsdbError Unit) (points : List P) :
    ∀ fuel k schema sleeps,
      (∃ sch, pushBatch lookup write points fuel k schema sleeps =
        .retrying sch (sleeps ++ List.replicate fuel 30)) ∨
      (∃ m, m < fuel ∧ pushBatch lookup write points fuel k schema sleeps =
        .delivered points (sleeps ++ List.replicate m 30)) := by
  intro fuel
  induction fuel with
  | zero =>
      intro k schema sleeps
      left
      exact ⟨schema, by simp [pushBatch]⟩
  | succ fuel ih =>
      intro k schema sleeps
      have hassoc : ∀ m : Nat, (sleeps ++ [30]) ++ List.replicate m 30 =
          sleeps ++ List.replicate (m + 1) 30 := by
        intro m
        rw [List.append_assoc]
        rfl
      cases schema with
      | none =>
          rcases hl : lookup k with e | sch
          · rw [pushBatch_none_lookup_err lookup write points fuel k sleeps hl]
            rcases ih (k + 1) none (sleeps ++ [30]) with ⟨sch2, hr⟩ | ⟨m, hm, hr⟩
            · left
              exact ⟨sch2, by rw [hr, hassoc]⟩
            · right
              exact ⟨m + 1, by omega, by rw [hr, hassoc]⟩
          · rcases hw : write k sch with e | u
            · rw [pushBatch_none_write_err lookup write points fuel k sleeps
                hl hw]
              rcases ih (k + 1) (some sch) (sleeps ++ [30]) with
                ⟨sch2, hr⟩ | ⟨m, hm, hr⟩
              · left
                exact ⟨sch2, by rw [hr, hassoc]⟩
              · right
                exact ⟨m + 1, by omega, by rw [hr, hassoc]⟩
            · cases u
              rw [pushBatch_none_write_ok lookup write points fuel k sleeps
                hl hw]
              right
              exact ⟨0, by omega, by simp⟩
      | some sch =>
          rcases hw : write k sch with e | u
          · rw [pushBatch_some_write_err lookup write points fuel k sleeps hw]
            rcases ih (k + 1) (some sch) (sleeps ++ [30]) with
              ⟨sch2, hr⟩ | ⟨m, hm, hr⟩
            · left
              exact ⟨sch2, by rw [hr, hassoc]⟩
            · right
              exact ⟨m + 1, by omega, by rw [hr, hassoc]⟩
          · cases u
            rw [pushBatch_some_write_ok lookup write points fuel k sleeps hw]
            right
            exact ⟨0, by omega, by simp⟩

/-- C6: the worker's per-batch retry loop never surfaces an exception and
never drops or alters the batch: whatever the schema-lookup and write
outcomes, after any number of attempts the loop has either delivered
exactly the original point list (one 30-second sleep per preceding failed
attempt) or is still retrying (one 30-second sleep per failed attempt so
far); a failed lookup leaves the schema unresolved so the lookup is
reattempted, while a failed write retains the schema already obtained. -/
theorem push_loop_retry_spec {S P : Type} (lookup : Nat → Except TsdbError S)
    (write : Nat → S → Except TsdbError Unit) (points : List P)
    (fuel k : Nat) (schema : Option S) :
    ((∃ sch, pushBatch lookup write points fuel k schema [] =
        .retrying sch (List.replicate fuel 30)) ∨
      (∃ m, m < fuel ∧ pushBatch lookup write points fuel k schema [] =
        .delivered points (List.replicate m 30))) ∧
    (∀ e, lookup k = .error e →
      pushBatch lookup write points (fuel + 1) k none [] =
        pushBatch lookup write points fuel (k + 1) none [30]) ∧
    (∀ sch e, lookup k = .ok sch → write k sch = .error e →
      pushBatch lookup write points (fuel + 1) k none [] =
        pushBatch lookup write points fuel (k + 1) (some sch) [30]) ∧
    (∀ sch e, write k sch = .error e →
      pushBatch lookup write points (fuel + 1) k (some sch) [] =
        pushBatch lookup write points fuel (k + 1) (some sch) [30]) := by
  refine ⟨?_, ?_, ?_, ?_⟩
  · simpa using pushBatch_aux lookup write points fuel k schema []
  · intro e hl
    rw [pushBatch_none_lookup_err lookup write points fuel k [] hl]
    simp
  · intro sch e hl hw
    rw [pushBatch_none_write_err lookup write points fuel k [] hl hw]
    simp
  · intro sch e hw
    rw [pushBatch_some_write_err lookup write points fuel k [] hw]
    simp

/-- Witness for `push_loop_retry_spec` at a concrete failing lookup. -/
theorem push_loop_retry_spec_witness :
    pushBatch (fun _ => (.error .ioError : Except TsdbError Unit))
        (fun _ _ => .ok ()) ([] : List Unit) 1 0 none [] =
      pushBatch (fun _ => (.error .ioError : Except TsdbError Unit))
        (fun _ _ => .ok ()) ([] : List Unit) 0 1 none [30] :=
  (push_loop_retry_spec (fun _ => .error .ioError) (fun _ _ => .ok ()) [] 0 0
    none).2.1 .ioError rfl

theorem ALL_ONES_eq : ALL_ONES = 2 ^ 64 - 1 := by norm_num [ALL_ONES]

theorem land_shift_ne_zero (x s : Nat) : (x &&& (1 <<< s) != 0) = x.testBit s := by
  rw [Nat.one_shiftLeft, Nat.and_two_pow]
  cases h : x.testBit s <;> simp [h]

/-- The first `m` iterations of the bitmap-building loop of `Field.pack`. -/
def packBitmapSteps (values : List (Option Nat)) (n m : Nat) : List Nat :=
  (List.range m).foldl
    (fun bm i =>
      if values.getD i none = none then
        bm.set (i / 64) (bm.getD (i / 64) 0 ^^^ (1 <<< (i % 64)))
      else bm)
    (List.replicate (ceil_div n 64) ALL_ONES)

theorem packBitmap_eq_steps (values : List (Option Nat)) (n : Nat) :
    packBitmap values n = packBitmapSteps values n values.length := rfl

theorem packBitmapSteps_succ (values : List (Option Nat)) (n m : Nat) :
    packBitmapSteps values n (m + 1) =
      (if values.getD m none = none then
        (packBitmapSteps values n m).set (m / 64)
          ((packBitmapSteps values n m).getD (m / 64) 0 ^^^ (1 <<< (m % 64)))
      else packBitmapSteps values n m) := by
  unfold packBitmapSteps
  rw [List.range_succ, List.foldl_append, List.foldl_cons, List.foldl_nil]

theorem packBitmapSteps_length (values : List (Option Nat)) (n : Nat) :
    ∀ m, (packBitmapSteps values n m).length = ceil_div n 64 := by
  intro m
  induction m with
  | zero => simp [packBitmapSteps]
  | succ m ih =>
      rw [packBitmapSteps_succ]
      split
      · rw [List.length_set]
        exact ih
      · exact ih

theorem packBitmapSteps_lt (values : List (Option Nat)) (n : Nat) :
    ∀ m j, (packBitmapSteps values n m).getD j 0 < 2 ^ 64 := by
  intro m
  induction m with
  | zero =>
      intro j
      simp only [packBitmapSteps, List.range_zero, List.foldl_nil]
      rw [List.getD_eq_getElem?_getD]
      by_cases hj : j < ceil_div n 64
      · simp [List.getElem?_replicate, hj, ALL_ONES_eq]
      · rw [List.getElem?_eq_none (by simpa using hj)]
        simp
  | succ m ih =>
      intro j
      rw [packBitmapSteps_succ]
      split
      · rw [List.getD_eq_getElem?_getD]
        by_cases hj : j = m / 64
        · subst hj
          by_cases hlen : m / 64 < (packBitmapSteps values n m).length
          · rw [show ((packBitmapSteps values n m).set (m / 64)
                ((packBitmapSteps values n m).getD (m / 64) 0 ^^^
                  (1 <<< (m % 64))))[m / 64]? =
                some ((packBitmapSteps values n m).getD (m / 64) 0 ^^^
                  (1 <<< (m % 64)))
              by simp [List.getElem?_set_self, hlen]]
            simp only [Option.getD_some]
            exact Nat.xor_lt_two_pow (ih (m / 64))
              (by rw [Nat.one_shiftLeft]
                  exact Nat.pow_lt_pow_right (by omega) (by omega))
          · rw [List.getElem?_eq_none (by simp [List.length_set]; omega)]
            simp
        · rw [List.getElem?_set_ne (by omega), ← List.getD_eq_getElem?_getD]
          exact ih j
      · exact ih j

theorem packBitmapSteps_testBit (values : List (Option Nat)) (n : Nat) :
    ∀ m, m ≤ n → ∀ j b, j < ceil_div n 64 → b < 64 →
      ((packBitmapSteps values n m).getD j 0).testBit b =
        if 64 * j + b < m then (values.getD (64 * j + b) none).isSome
        else true := by
  intro m
  induction m with
  | zero =>
      intro _ j b hj hb
      simp only [packBitmapSteps, List.range_zero, List.foldl_nil]
      rw [List.getD_eq_getElem?_getD]
      rw [show (List.replicate (ceil_div n 64) ALL_ONES)[j]? = some ALL_ONES by
        simp [List.getElem?_replicate, hj]]
      simp only [Option.getD_some, ALL_ONES_eq, Nat.testBit_two_pow_sub_one]
      simp [hb]
  | succ m ih =>
      intro hm j b hj hb
      have hWlen := packBitmapSteps_length values n m
      rw [packBitmapSteps_succ]
      by_cases hnull : values.getD m none = none
      · rw [if_pos hnull]
        by_cases hjm : j = m / 64
        · subst hjm
          have hlen : m / 64 < (packBitmapSteps values n m).length := by
            rw [hWlen]
            unfold ceil_div
            omega
          rw [List.getD_eq_getElem?_getD,
            show ((packBitmapSteps values n m).set (m / 64)
                ((packBitmapSteps values n m).getD (m / 64) 0 ^^^
                  (1 <<< (m % 64))))[m / 64]? =
              some ((packBitmapSteps values n m).getD (m / 64) 0 ^^^
                (1 <<< (m % 64)))
              by simp [List.getElem?_set_self, hlen]]
          simp only [Option.getD_some, Nat.testBit_xor, Nat.one_shiftLeft]
          by_cases hbm : b = m % 64
          · subst hbm
            have hpos : 64 * (m / 64) + m % 64 = m := by omega
            rw [ih (by omega) (m / 64) (m % 64) hj hb, hpos]
            rw [List.getD_eq_getElem?_getD] at hnull
            simp [Nat.testBit_two_pow, hnull, Nat.lt_irrefl]
          · have hpos : 64 * (m / 64) + b ≠ m := by omega
            rw [ih (by omega) (m / 64) b hj hb]
            rw [show ((2 : Nat) ^ (m % 64)).testBit b = false by
              simp [Nat.testBit_two_pow]; omega]
            by_cases hfin : 64 * (m / 64) + b < m
            · simp [hfin, show 64 * (m / 64) + b < m + 1 by omega]
            · simp [hfin, show ¬(64 * (m / 64) + b < m + 1) by omega]
        · rw [List.getD_eq_getElem?_getD, List.getElem?_set_ne (by omega),
            ← List.getD_eq_getElem?_getD]
          have hpos : 64 * j + b ≠ m := by omega
          rw [ih (by omega) j b hj hb]
          by_cases hfin : 64 * j + b < m
          · simp [hfin, show 64 * j + b < m + 1 by omega]
          · simp [hfin, show ¬(64 * j + b < m + 1) by omega]
      · rw [if_neg hnull]
        rw [ih (by omega) j b hj hb]
        by_cases hpos : 64 * j + b = m
        · rw [if_neg (by omega), if_pos (by omega), hpos]
          rw [List.getD_eq_getElem?_getD] at hnull
          simp [Option.isSome_iff_ne_none, hnull]
        · by_cases hfin : 64 * j + b < m
          · simp [hfin, show 64 * j + b < m + 1 by omega]
          · simp [hfin, show ¬(64 * j + b < m + 1) by omega]

/-- Bit `i` of the packed bitmap is clear exactly at the null positions. -/
theorem packBitmap_testBit (values : List (Option Nat)) (n : Nat)
    (hlen : values.length = n) (i : Nat) (hi : i < n) :
    ((packBitmap values n).getD (i / 64) 0).testBit (i % 64) =
      (values.getD i none).isSome := by
  rw [packBitmap_eq_steps, hlen]
  have hj : i / 64 < ceil_div n 64 := by
    unfold ceil_div
    omega
  rw [packBitmapSteps_testBit values n n (Nat.le_refl n) (i / 64) (i % 64) hj
    (by omega)]
  rw [show 64 * (i / 64) + i % 64 = i by omega]
  simp [hi]

theorem packBitmap_mem_lt (values : List (Option Nat)) (n : Nat) :
    ∀ w ∈ packBitmap values n, w < 2 ^ 64 := by
  intro w hw
  rw [List.mem_iff_getElem] at hw
  obtain ⟨i, hilt, heq⟩ := hw
  have h := packBitmapSteps_lt values n values.length i
  rw [← packBitmap_eq_steps] at h
  rw [List.getD_eq_getElem?_getD, List.getElem?_eq_getElem hilt] at h
  simpa [heq] using h

theorem leDecodeList_leBytesList_words (ws : List Nat)
    (hws : ∀ w ∈ ws, w < 2 ^ 64) :
    leDecodeList 8 (leBytesList 8 ws) = ws := by
  rw [leDecodeList_leBytesList 8 (by omega)]
  have h256 : (256 : Nat) ^ 8 = 2 ^ 64 := by norm_num
  conv_rhs => rw [← List.map_id ws]
  apply List.map_congr_left
  intro w hw
  simp only [id]
  rw [h256]
  exact Nat.mod_eq_of_lt (hws w hw)

/-- The `FieldData` that slicing a packed chunk yields for field `f`. -/
def packedFieldData (f : Field) (points : List Point) (index n : Nat) :
    FieldData :=
  mkFieldData 0 (leBytesList 8 (packBitmap (f.fieldValues points index n) n))
    (leBytesList f.field_type.size
      ((f.fieldValues points index n).map fun o => o.getD 0)) f.field_type

/-- Reading back slot `i` of a packed field block returns exactly the
original optional value. -/
theorem packedFieldData_getItem (f : Field) (points : List Point)
    (index n : Nat) (hsz : 0 < f.field_type.size)
    (hrange : ∀ i, i < n → ∀ v,
      (f.fieldValues points index n).getD i none = some v →
        v < 256 ^ f.field_type.size)
    (i : Nat) (hi : i < n) :
    (packedFieldData f points index n).getItem i =
      some ((f.fieldValues points index n).getD i none) := by
  set vals := f.fieldValues points index n with hvals
  have hlen : vals.length = n := fieldValues_length f points index n
  have hbm : leDecodeList 8 (leBytesList 8 (packBitmap vals n)) =
      packBitmap vals n :=
    leDecodeList_leBytesList_words _ (packBitmap_mem_lt vals n)
  have hvd : leDecodeList f.field_type.size
      (leBytesList f.field_type.size (vals.map fun o => o.getD 0)) =
      (vals.map fun o => o.getD 0).map (· % 256 ^ f.field_type.size) :=
    leDecodeList_leBytesList f.field_type.size hsz _
  unfold packedFieldData mkFieldData FieldData.getItem FieldData.get_bitmap_bit
  simp only [hbm, hvd, List.length_map, hlen]
  rw [if_pos hi]
  rw [Nat.zero_add, land_shift_ne_zero, packBitmap_testBit vals n hlen i hi]
  have hget : ((vals.map fun o => o.getD 0).map
      (· % 256 ^ f.field_type.size)).getD i 0 =
      (vals.getD i none).getD 0 % 256 ^ f.field_type.size := by
    rw [List.getD_eq_getElem?_getD,
      List.getElem?_eq_getElem (by simp [hlen, hi]),
      List.getElem_map, List.getElem_map,
      List.getD_eq_getElem?_getD, List.getElem?_eq_getElem (by omega)]
    rfl
  rcases hvo : vals.getD i none with _ | v
  · simp [hvo]
  · have hvlt : v < 256 ^ f.field_type.size := hrange i hi v hvo
    simp only [hvo, Option.isSome_some, if_pos]
    rw [hget, hvo]
    simp [Nat.mod_eq_of_lt hvlt]

/-- The field walk of `RXChunk.__init__` over a packed payload slices it
back into exactly the per-field packed blocks. -/
theorem rxFields_packed (s : Schema) (points : List Point) (index n bn : Nat)
    (hbn : bn = ceil_div n 64 * 8) :
    ∀ (fl : List Field) (data : List Nat) (offset : Nat),
      (∀ f ∈ fl, s.get_field_type f.name = some f.field_type) →
      data.drop offset = (fl.map fun f => f.pack points index n).flatten →
      rxFields s n 0 bn data (fl.map fun f => f.name) offset =
        some (fl.map fun f => (f.name, packedFieldData f points index n)) := by
  intro fl
  induction fl with
  | nil =>
      intro data offset _ _
      rfl
  | cons f fl ih =>
      intro data offset hft hdrop
      have hftf : s.get_field_type f.name = some f.field_type :=
        hft f (List.mem_cons_self f fl)
      set vals := f.fieldValues points index n with hvals
      set bb := leBytesList 8 (packBitmap vals n) with hbb
      set vb := leBytesList f.field_type.size (vals.map fun o => o.getD 0)
        with hvb
      set pb := (if n * f.field_type.size % 8 ≠ 0 then
        List.replicate (8 - n * f.field_type.size % 8) 0 else []) with hpb
      have hpack : f.pack points index n = bb ++ (vb ++ pb) := by
        rw [Field.pack, List.append_assoc]
      have hbbl : bb.length = bn := by
        rw [hbb, leBytesList_length, packBitmap_length, hbn]
      have hvbl : vb.length = f.field_type.size * n := by
        rw [hvb, leBytesList_length, List.length_map, fieldValues_length]
        ring
      have hsplit : data.drop offset =
          bb ++ (vb ++ (pb ++ (fl.map fun g => g.pack points index n).flatten)) := by
        rw [hdrop, List.map_cons, List.flatten_cons, hpack]
        simp [List.append_assoc]
      rw [List.map_cons, rxFields, hftf]
      simp only
      have hbd : (data.drop offset).take bn = bb := by
        rw [hsplit, List.take_left' hbbl]
      have hfd : (data.drop (offset + bn)).take (f.field_type.size * n) = vb := by
        have h1 : data.drop (offset + bn) =
            vb ++ (pb ++ (fl.map fun g => g.pack points index n).flatten) := by
          rw [← List.drop_drop, hsplit, ← hbbl, List.drop_left]
        rw [h1, List.take_left' hvbl]
      have hnext : data.drop (offset + bn + f.field_type.size * n +
          (if f.field_type.size * n % 8 ≠ 0 then 8 - f.field_type.size * n % 8
            else 0)) =
          (fl.map fun g => g.pack points index n).flatten := by
        have hpbl : pb.length = (if f.field_type.size * n % 8 ≠ 0 then
            8 - f.field_type.size * n % 8 else 0) := by
          rw [hpb]
          rcases Nat.eq_zero_or_pos (n * f.field_type.size % 8) with h0 | hp
          · rw [if_neg (by omega), if_neg (by
              rw [Nat.mul_comm f.field_type.size n]
              omega)]
            rfl
          · rw [if_pos (by omega), if_pos (by
              rw [Nat.mul_comm f.field_type.size n]
              omega), List.length_replicate, Nat.mul_comm f.field_type.size n]
        have harr : offset + bn + f.field_type.size * n +
            (if f.field_type.size * n % 8 ≠ 0 then
              8 - f.field_type.size * n % 8 else 0) =
            offset + (bn + (f.field_type.size * n + pb.length)) := by
          rw [hpbl]
          ring
        rw [harr, ← List.drop_drop, hsplit, ← hbbl, List.drop_append]
        rw [← hvbl, List.drop_append]
        rw [show pb.length = pb.length + 0 from rfl, List.drop_append]
        exact List.drop_zero _
      rw [ih data _ (fun g hg => hft g (List.mem_cons_of_mem f hg)) hnext]
      simp only [hbd, hfd]
      rfl

instance : Inhabited FieldType := ⟨⟨0, 0⟩⟩

instance : Inhabited Field := ⟨⟨default, ""⟩⟩

instance : Inhabited FieldData := ⟨⟨0, 0, [], []⟩⟩

theorem get_field_type_nodup (fl : List Field)
    (hnd : (fl.map fun f => f.name).Nodup) (f : Field) (hf : f ∈ fl) :
    Schema.get_field_type ⟨fl⟩ f.name = some f.field_type := by
  induction fl with
  | nil => cases hf
  | cons g fl ih =>
      rw [List.map_cons, List.nodup_cons] at hnd
      rcases List.mem_cons.mp hf with rfl | hmem
      · unfold Schema.get_field_type
        rw [List.find?_cons_of_pos _ (by simp)]
        rfl
      · unfold Schema.get_field_type
        have hne : g.name ≠ f.name := by
          intro he
          exact hnd.1 (he ▸ List.mem_map_of_mem (fun f => f.name) hmem)
        rw [List.find?_cons_of_neg _ (by simp [hne])]
        exact ih hnd.2 hmem

theorem range_map_getD {α β : Type} [Inhabited α] (l : List α) (g : α → β) :
    ((List.range l.length).map fun i => g (l.getD i default)) = l.map g := by
  apply List.ext_getElem
  · simp
  · intro i h1 h2
    simp only [List.getElem_map, List.getElem_range]
    rw [List.getD_eq_getElem?_getD,
      List.getElem?_eq_getElem (by simpa using h2)]
    rfl

theorem fieldValues_getD (f : Field) (points : List Point) (index n i : Nat)
    (hi : i < n) :
    (f.fieldValues points index n).getD i none =
      (points.getD (index + i) default).fields f.name := by
  unfold Field.fieldValues
  rw [List.getD_eq_getElem?_getD, List.getElem?_eq_getElem (by simp [hi])]
  simp

/-- C1: unpacking the chunk produced by `pack_points(P, 0, |P|)` with
bitmap_offset 0 and the full field list yields, per field and point, the
original value (`none` exactly at the null positions), and the decoded
timestamps equal the points' `time_ns` in order.  Hypotheses: field names
are distinct, field sizes positive (true of all seven field kinds), and
timestamps/values fit their wire width (required for numpy to serialize
them at all). -/
theorem pack_unpack_roundtrip (s : Schema) (points : List Point)
    (hnodup : (s.fields.map fun f => f.name).Nodup)
    (hsize : ∀ f ∈ s.fields, 0 < f.field_type.size)
    (hts : ∀ p ∈ points, p.time_ns < 2 ^ 64)
    (hvals : ∀ p ∈ points, ∀ f ∈ s.fields, ∀ v, p.fields f.name = some v →
      v < 256 ^ f.field_type.size) :
    ∃ ch, mkRXChunk s (s.fields.map fun f => f.name) points.length 0
        (s.pack_points points 0 points.length) = some ch ∧
      ch.timestamps = points.map (fun p => p.time_ns) ∧
      ch.fields = s.fields.map
        (fun f => (f.name, packedFieldData f points 0 points.length)) ∧
      ∀ f ∈ s.fields, ∀ i, i < points.length →
        (packedFieldData f points 0 points.length).getItem i =
          some ((points.getD i default).fields f.name) := by
  set n := points.length with hn
  set ts := (List.range n).map
    (fun i => (points.getD (0 + i) default).time_ns) with hts0
  have htslen : (leBytesList 8 ts).length = n * 8 := by
    rw [leBytesList_length, hts0, List.length_map, List.length_range]
  have hdrop : (s.pack_points points 0 n).drop (n * 8) =
      (s.fields.map fun f => f.pack points 0 n).flatten := by
    unfold Schema.pack_points
    rw [← hts0, List.drop_left' htslen]
  have hrx := rxFields_packed s points 0 n (ceil_div (0 + n) 64 * 8)
    (by rw [Nat.zero_add]) s.fields (s.pack_points points 0 n) (n * 8)
    (fun f hf => get_field_type_nodup s.fields hnodup f hf) hdrop
  have hitem : ∀ f ∈ s.fields, ∀ i, i < n →
      (packedFieldData f points 0 n).getItem i =
        some ((points.getD i default).fields f.name) := by
    intro f hf i hi
    rw [packedFieldData_getItem f points 0 n (hsize f hf) ?hr i hi]
    · rw [fieldValues_getD f points 0 n i hi, Nat.zero_add]
    case hr =>
      intro j hj v hv
      rw [fieldValues_getD f points 0 n j hj, Nat.zero_add] at hv
      have hp : points.getD j default ∈ points := by
        rw [List.getD_eq_getElem?_getD, List.getElem?_eq_getElem (by omega)]
        exact List.getElem_mem _
      exact hvals _ hp f hf v hv
  refine ⟨⟨n, 0, leDecodeList 8 ((s.pack_points points 0 n).take (n * 8)),
    s.fields.map fun f => (f.name, packedFieldData f points 0 n)⟩, ?_, ?_, rfl,
    hitem⟩
  · unfold mkRXChunk
    rw [hrx]
  · have htake : (s.pack_points points 0 n).take (n * 8) = leBytesList 8 ts := by
      unfold Schema.pack_points
      rw [← hts0, List.take_left' htslen]
    rw [htake, leDecodeList_leBytesList_words]
    · rw [hts0, hn]
      have h0 : ∀ i : Nat, (points.getD (0 + i) default).time_ns =
          (points.getD i default).time_ns := by
        intro i
        rw [Nat.zero_add]
      calc ((List.range points.length).map
            fun i => (points.getD (0 + i) default).time_ns) =
          (List.range points.length).map
            fun i => (points.getD i default).time_ns :=
            List.map_congr_left fun i _ => h0 i
        _ = points.map fun p => p.time_ns :=
            range_map_getD points fun p => p.time_ns
    · intro w hw
      rw [hts0] at hw
      rw [List.mem_map] at hw
      obtain ⟨i, hi, rfl⟩ := hw
      rw [List.mem_range] at hi
      apply hts
      rw [List.getD_eq_getElem?_getD, List.getElem?_eq_getElem (by omega)]
      exact List.getElem_mem _

/-- A one-field (u64) schema used to instantiate theorems concretely. -/
def wS : Schema := ⟨[⟨⟨3, 8⟩, "x"⟩]⟩

/-- A single concrete point for `wS`. -/
def wPts : List Point := [⟨5, fun _ => some 7⟩]

/-- A one-field (bool) schema for the roundtrip instance. -/
def wSchema1 : Schema := ⟨[⟨⟨1, 1⟩, "v"⟩]⟩

/-- Two concrete points, the second with a null field value. -/
def wPts1 : List Point := [⟨1, fun _ => some 1⟩, ⟨2, fun _ => none⟩]

/-- Witness for `pack_unpack_roundtrip` on a concrete two-point batch. -/
theorem pack_unpack_roundtrip_witness :
    ∃ ch, mkRXChunk wSchema1 (wSchema1.fields.map fun f => f.name)
        wPts1.length 0 (wSchema1.pack_points wPts1 0 wPts1.length) = some ch ∧
      ch.timestamps = wPts1.map (fun p => p.time_ns) ∧
      ch.fields = wSchema1.fields.map
        (fun f => (f.name, packedFieldData f wPts1 0 wPts1.length)) ∧
      ∀ f ∈ wSchema1.fields, ∀ i, i < wPts1.length →
        (packedFieldData f wPts1 0 wPts1.length).getItem i =
          some ((wPts1.getD i default).fields f.name) :=
  pack_unpack_roundtrip wSchema1 wPts1 (by simp [wSchema1]) (by decide)
    (by decide)
    (by
      intro p hp f hf v hv
      simp only [wSchema1, List.mem_singleton] at hf
      subst hf
      simp only [wPts1, List.mem_cons, List.mem_singleton] at hp
      rcases hp with rfl | rfl | h
      · simp only at hv
        cases hv
        decide
      · simp only at hv
        cases hv
      · cases h)

/-- Witness for `write_points_frames` at one point and max_data_len 4096. -/
theorem write_points_frames_witness :
    wPts ≠ [] ∧ 64 ≤ wS.max_points_for_data_len 4096 ∧
    (write_points_trace wS wPts 4096 wPts.length).countP TXFrame.isChunk =
      ceil_div wPts.length (wS.max_points_for_data_len 4096) :=
  ⟨List.cons_ne_nil _ _, by decide,
    (write_points_frames wS wPts 4096 (List.cons_ne_nil _ _) (by decide)).2.1⟩

/-- Witness for `write_points_chunk_assertions` on the first chunk the loop
emits for `wPts`. -/
theorem write_points_chunk_assertions_witness :
    (wS.pack_points wPts 0 1).length = wS.data_len_for_npoints 1 ∧
    (wS.pack_points wPts 0 1).length ≤ 4096 :=
  write_points_chunk_assertions wS wPts 4096 1 0 1 1 0
    (wS.pack_points wPts 0 1) (by decide)

/-- Witness for `write_points_termination`: with capacity 192 the loop on
one point reaches zero remaining in one iteration. -/
theorem write_points_termination_witness :
    ((writeLoopStep (wS.max_points_for_data_len 4096))^[
        ceil_div wPts.length (wS.max_points_for_data_len 4096)]
      (0, wPts.length)).2 = 0 :=
  ((write_points_termination wS wPts 4096 (by decide)).1 (by decide)).1

/-- Witness for `select_read_chunk_spec`: a mid-stream DT_STATUS_CODE token
(where a chunk or DT_END is expected) raises ProtocolException. -/
theorem select_read_chunk_spec_witness :
    SelectOP.read_chunk ⟨[]⟩ [] DT_STATUS_CODE [] =
      .error (.protocolExc "Expected DT_CHUNK") :=
  (select_read_chunk_spec ⟨[]⟩ [] DT_STATUS_CODE []).2.1 (by decide) (by decide)

/-- Witness for `sums_read_chunk_spec` on a one-point, one-field chunk. -/
theorem sums_read_chunk_spec_witness :
    ∃ r, SumsOP.read_chunk ["a"] DT_SUMS_CHUNK
        (leBytes 2 1 ++ (List.replicate 40 0 ++ (leBytes 4 7 ++ []))) =
      .ok r :=
  ⟨_, sums_read_chunk_spec ["a"] 1 7 (List.replicate 40 0) [] (by decide)
    (by decide) (by decide)⟩

end SimpleTsdb
